import Mathlib

/-!
Verification of the `data_server` corpus-sampling service
(`src/data_server/src/main.rs`).

The byte-level frame decoder `read_pb_stream`, the store constructor
`MyDataService::new`, and the request handler `sample_data` are embedded
as Lean functions over lists of bytes (`Nat`).  The protobuf payload
codec for `TextData` is generated from a schema outside `src/`, so it is
modelled from the spec as a concrete injective codec whose decode of the
empty buffer yields the default (empty) message, as protobuf does.
Randomness is made explicit: a random source is a `Nat` (the weighted
draw) together with a `List Nat` (the reservoir draws), each consumed
modulo its range exactly as `gen_range` constrains it.
-/

namespace DataServer

/-- Modelled from the spec: an Item (source `Sentence`, schema outside
`src/`) is an opaque text record; its content is a list of bytes. -/
structure Sentence where
  data : List Nat
  deriving Repr, DecidableEq, Inhabited

/-- Modelled from the spec: a Partition (source `TextData`, schema outside
`src/`) is an ordered sequence of Items in a repeated `sentences` field. -/
structure TextData where
  sentences : List Sentence
  deriving Repr, DecidableEq, Inhabited

/-- Little-endian 32-bit value of four bytes (`u32::from_le_bytes`). -/
def fromLE4 (b : List Nat) : Nat :=
  b.getD 0 0 + 256 * (b.getD 1 0 + 256 * (b.getD 2 0 + 256 * b.getD 3 0))

/-- The four little-endian bytes of a 32-bit length (`u32` encoding). -/
def toLE4 (n : Nat) : List Nat :=
  [n % 256, n / 256 % 256, n / 256 ^ 2 % 256, n / 256 ^ 3 % 256]

/-- Modelled from the spec: the serialized form of a Partition payload
(the prost-generated `TextData` codec lives outside `src/`): each Item
in order as a 4-byte little-endian length followed by its bytes. -/
def encTD (td : TextData) : List Nat :=
  td.sentences.foldr (fun s acc => toLE4 s.data.length ++ s.data ++ acc) []

/-- Modelled from the spec: parse a serialized Partition payload back into
its Items; an empty buffer is the default message (no Items), any
truncated Item is a parse failure. -/
def decSentences (b : List Nat) : Option (List Sentence) :=
  if b = [] then some []
  else if hlen : b.length < 4 then none
  else
    let len := fromLE4 (b.take 4)
    let rest := b.drop 4
    if hr : rest.length < len then none
    else (decSentences (rest.drop len)).map (⟨rest.take len⟩ :: ·)
termination_by b.length
decreasing_by
  simp only [rest, List.length_drop]
  omega

/-- Modelled from the spec: `TextData::decode` over a payload buffer. -/
def decTD (b : List Nat) : Option TextData :=
  (decSentences b).map TextData.mk

/-- The I/O error kinds `read_pb_stream` can produce: a short payload read
(`ErrorKind::UnexpectedEof`, the spec's FormatError) or a payload that does
not parse (`ErrorKind::InvalidData`, the spec's DecodeError). -/
inductive IoErr where
  | unexpectedEof
  | invalidData
  deriving Repr, DecidableEq

/-- Frame decoder `read_pb_stream`: repeatedly read a 4-byte little-endian length prefix
and that many payload bytes, decoding each payload as a `TextData`.
`read_exact` on the prefix returns `UnexpectedEof` whenever fewer than 4
bytes remain — zero bytes or a partial prefix alike — and the loop breaks
on that kind, ending decoding normally.  A short payload read propagates
its `UnexpectedEof`; a payload that fails to decode yields `InvalidData`. -/
def read_pb_stream (s : List Nat) : Except IoErr (List TextData) :=
  if h4 : s.length < 4 then .ok []
  else
    let size := fromLE4 (s.take 4)
    let rest := s.drop 4
    if hr : rest.length < size then .error .unexpectedEof
    else
      match decTD (rest.take size) with
      | none => .error .invalidData
      | some td => (read_pb_stream (rest.drop size)).map (td :: ·)
termination_by s.length
decreasing_by
  simp only [rest, List.length_drop]
  omega

/-- The service state: the decoded partitions (`groups`) and the parallel
weight vector recorded at load time (`f32` in the source; sentence counts
are represented exactly as naturals here, and only their zero/positivity
and equality to counts matter to any property below). -/
structure MyDataService where
  groups : List TextData
  weights : List Nat
  deriving Repr, DecidableEq, Inhabited

/-- The inner loop body of `MyDataService::new`: push each decoded
`TextData` and its sentence count onto the accumulators, in order. -/
def pushGroups (groups : List TextData) (weights : List Nat) :
    List TextData → List TextData × List Nat
  | [] => (groups, weights)
  | td :: tds => pushGroups (groups ++ [td]) (weights ++ [td.sentences.length]) tds

/-- Store construction `MyDataService::new` over the contents of the input files (opening a
file is modelled as being handed its bytes): run `read_pb_stream` over
each file in order, appending decoded partitions and their weights;
any decoder error aborts construction. -/
def MyDataService.new (files : List (List Nat)) : Except IoErr MyDataService :=
  go files [] []
where
  go : List (List Nat) → List TextData → List Nat → Except IoErr MyDataService
  | [], groups, weights => .ok ⟨groups, weights⟩
  | f :: fs, groups, weights =>
    match read_pb_stream f with
    | .error e => .error e
    | .ok tds =>
      let (groups, weights) := pushGroups groups weights tds
      go fs groups weights

/-- The request message: `{ num_samples }` (`u64` in the schema, a
non-negative integer per the spec). -/
structure SampleDataRequest where
  num_samples : Nat
  deriving Repr, DecidableEq

/-- The response message: the sampled Items. -/
structure SampledData where
  samples : List Sentence
  deriving Repr, DecidableEq

/-- The RPC error surface used by `sample_data`. -/
inductive Status where
  | internal (msg : String)
  deriving Repr, DecidableEq

/-- Weighted pick `SliceRandom::choose_weighted` over `groups` with weight function
`|item| item.sentences.len()`: fails iff the total weight is zero (the
`NoItem` and `AllWeightsZero` cases; weights here are never negative),
otherwise draws `x` uniformly below the total and picks the first index
whose cumulative weight exceeds `x`.  The random draw is supplied as `r`,
reduced modulo the total. -/
def pickWeighted : List Nat → Nat → Nat
  | [], _ => 0
  | w :: ws, x => if x < w then 0 else (pickWeighted ws (x - w)) + 1

/-- Total weight of the store as sampled: each group's sentence count. -/
def totalWeight (groups : List TextData) : Nat :=
  (groups.map (fun g => g.sentences.length)).sum

/-- Index selected by `choose_weighted`, or `none` on `WeightedError`. -/
def choose_weighted (groups : List TextData) (r : Nat) : Option Nat :=
  if totalWeight groups = 0 then none
  else some (pickWeighted (groups.map (fun g => g.sentences.length)) (r % totalWeight groups))

/-- The reservoir loop of `IteratorRandom::choose_multiple`: for each
remaining index `i` (in order) draw `k = gen_range(0..i+1)` (the source's
`gen_range(0..(i + 1 + amount))` with `i` counted from the start of the
iterator) and overwrite slot `k` of the reservoir when it is in range
(`get_mut` returns `None` otherwise — `List.set` is exactly that no-op).
One draw is consumed per index; the stream of draws never runs dry in the
source, so an exhausted list falls back to the in-range no-op value `i`. -/
def reservoirRun : List Nat → List Nat → List Nat → List Nat
  | res, [], _ => res
  | res, i :: is, cs => reservoirRun (res.set (cs.headD i % (i + 1)) i) is cs.tail

/-- Sampler `IteratorRandom::choose_multiple` over the index iterator `0..m`,
returning the selected positions: the reservoir starts as the first
`amount` indices; if the iterator had fewer than `amount` elements they
are all returned, otherwise the reservoir loop runs over the rest. -/
def choose_multiple (m n : Nat) (cs : List Nat) : List Nat :=
  if m ≤ n then List.range m
  else reservoirRun (List.range n) (List.range' n (m - n)) cs

/-- Request handler `sample_data`: select one group by sentence-count weight, clamp
`num_samples` to the group's size, draw that many distinct positions
without replacement, and return the Items at those positions; a failed
group selection is an internal-error status.  The thread-local random
source is made explicit as the pair `rng = (weighted draw, reservoir
draws)`. -/
def sample_data (svc : MyDataService) (request : SampleDataRequest)
    (rng : Nat × List Nat) : Except Status SampledData :=
  let num_samples := request.num_samples
  match choose_weighted svc.groups rng.1 with
  | some gi =>
    let group := svc.groups.getD gi default
    let num_samples :=
      if num_samples > group.sentences.length then group.sentences.length else num_samples
    let positions := choose_multiple group.sentences.length num_samples rng.2
    .ok ⟨positions.map (fun p => group.sentences.getD p default)⟩
  | none => .error (.internal "Failed to select a group")

/-- Equality of `Except` results is decidable componentwise. -/
instance {e a : Type} [DecidableEq e] [DecidableEq a] :
    DecidableEq (Except e a) := fun x y =>
  match x, y with
  | .error u, .error v =>
    if h : u = v then isTrue (by rw [h])
    else isFalse (fun hc => h (Except.error.inj hc))
  | .error _, .ok _ => isFalse (fun hc => Except.noConfusion hc)
  | .ok _, .error _ => isFalse (fun hc => Except.noConfusion hc)
  | .ok u, .ok v =>
    if h : u = v then isTrue (by rw [h])
    else isFalse (fun hc => h (Except.ok.inj hc))

/-! ### Frame encoding and basic decoder lemmas -/

/-- Encode a list of partitions as consecutive frames: each partition's
payload preceded by its 4-byte little-endian length. -/
def encodeFrames (tds : List TextData) : List Nat :=
  tds.foldr (fun td acc => toLE4 (encTD td).length ++ encTD td ++ acc) []

/-- A partition whose frame round-trips: its payload and each of its
Items fit the 32-bit length prefixes. -/
def wfTD (td : TextData) : Prop :=
  (encTD td).length < 2 ^ 32 ∧ ∀ s ∈ td.sentences, s.data.length < 2 ^ 32

instance : DecidablePred wfTD := fun td => by
  unfold wfTD; infer_instance

theorem length_toLE4 (n : Nat) : (toLE4 n).length = 4 := rfl

theorem fromLE4_toLE4 {n : Nat} (h : n < 2 ^ 32) : fromLE4 (toLE4 n) = n := by
  simp only [fromLE4, toLE4, List.getD_cons_zero, List.getD_cons_succ]
  omega

theorem read_pb_stream_eof {s : List Nat} (h : s.length < 4) :
    read_pb_stream s = .ok [] := by
  rw [read_pb_stream]
  simp [h]

theorem read_pb_stream_trunc {s : List Nat} (h4 : 4 ≤ s.length)
    (hr : (s.drop 4).length < fromLE4 (s.take 4)) :
    read_pb_stream s = .error .unexpectedEof := by
  rw [read_pb_stream]
  simp only [List.length_drop] at hr
  simp [Nat.not_lt.mpr h4, Nat.lt_of_lt_of_le hr (Nat.le_refl _), hr]

theorem read_pb_stream_step {s : List Nat} (h4 : 4 ≤ s.length)
    (hr : fromLE4 (s.take 4) ≤ (s.drop 4).length) :
    read_pb_stream s =
      match decTD ((s.drop 4).take (fromLE4 (s.take 4))) with
      | none => .error .invalidData
      | some td =>
        (read_pb_stream ((s.drop 4).drop (fromLE4 (s.take 4)))).map (td :: ·) := by
  rw [read_pb_stream]
  simp only [List.length_drop] at hr
  simp [Nat.not_lt.mpr h4, Nat.not_lt.mpr hr]

theorem decSentences_nil : decSentences [] = some [] := by
  rw [decSentences]
  simp

theorem decTD_nil : decTD [] = some ⟨[]⟩ := by
  simp [decTD, decSentences_nil]

theorem decSentences_frame (d rest : List Nat) (hd : d.length < 2 ^ 32) :
    decSentences (toLE4 d.length ++ d ++ rest) = (decSentences rest).map (⟨d⟩ :: ·) := by
  set b := toLE4 d.length ++ d ++ rest with hb
  have hassoc : b = toLE4 d.length ++ (d ++ rest) := by rw [hb, List.append_assoc]
  have hlen : b.length = 4 + (d.length + rest.length) := by
    rw [hassoc]; simp [length_toLE4]
  have htake : b.take 4 = toLE4 d.length := by
    rw [hassoc]; exact List.take_left' (length_toLE4 _)
  have hdrop : b.drop 4 = d ++ rest := by
    rw [hassoc]; exact List.drop_left' (length_toLE4 _)
  have hnil : ¬ b = [] := by intro h; rw [h] at hlen; simp at hlen; omega
  have h4 : ¬ b.length < 4 := by omega
  rw [decSentences, if_neg hnil, dif_neg h4]
  simp only [htake, hdrop, fromLE4_toLE4 hd]
  have hr : ¬ (d ++ rest).length < d.length := by simp
  rw [dif_neg hr, List.take_left' rfl, List.drop_left' rfl]

theorem decSentences_enc {l : List Sentence}
    (h : ∀ s ∈ l, s.data.length < 2 ^ 32) :
    decSentences (l.foldr (fun s acc => toLE4 s.data.length ++ s.data ++ acc) []) =
      some l := by
  induction l with
  | nil => exact decSentences_nil
  | cons s t ih =>
    rw [List.foldr_cons, decSentences_frame _ _ (h s (List.mem_cons_self _ _)),
      ih (fun x hx => h x (List.mem_cons_of_mem _ hx))]
    rfl

theorem decTD_encTD {td : TextData} (h : wfTD td) : decTD (encTD td) = some td := by
  obtain ⟨-, h2⟩ := h
  unfold decTD encTD
  rw [decSentences_enc h2]
  rfl

/-- Decoding well-formed frames followed by arbitrary trailing bytes: the
frames decode in order and the decoder continues into the trailing bytes. -/
theorem read_pb_stream_frames_junk {tds : List TextData} (junk : List Nat)
    (h : ∀ td ∈ tds, wfTD td) :
    read_pb_stream (encodeFrames tds ++ junk) =
      (read_pb_stream junk).map (tds ++ ·) := by
  induction tds with
  | nil =>
    show read_pb_stream junk = _
    cases read_pb_stream junk <;> rfl
  | cons td t ih =>
    have hwf : wfTD td := h td (List.mem_cons_self _ _)
    have hL : (encTD td).length < 2 ^ 32 := hwf.1
    set s := encodeFrames (td :: t) ++ junk with hs
    have hassoc : s = toLE4 (encTD td).length ++
        (encTD td ++ (encodeFrames t ++ junk)) := by
      rw [hs]; simp [encodeFrames, List.foldr_cons, List.append_assoc]
    have htake : s.take 4 = toLE4 (encTD td).length := by
      rw [hassoc]; exact List.take_left' (length_toLE4 _)
    have hdrop : s.drop 4 = encTD td ++ (encodeFrames t ++ junk) := by
      rw [hassoc]; exact List.drop_left' (length_toLE4 _)
    have h4 : 4 ≤ s.length := by
      rw [hassoc]; simp [length_toLE4]
    have hsize : fromLE4 (s.take 4) = (encTD td).length := by
      rw [htake, fromLE4_toLE4 hL]
    have hr : fromLE4 (s.take 4) ≤ (s.drop 4).length := by
      rw [hsize, hdrop]; simp
    rw [read_pb_stream_step h4 hr, hsize, hdrop,
      List.take_left' rfl, List.drop_left' rfl, decTD_encTD hwf,
      ih (fun x hx => h x (List.mem_cons_of_mem _ hx))]
    cases read_pb_stream junk <;> rfl

/-! ### C1: behaviour on streams that end mid-frame -/

/-- C1 counterexample: the stream consisting of one complete (empty)
frame followed by a single extra byte ends mid-frame — only 1 of the 4
length-prefix bytes is present — yet `read_pb_stream` terminates
successfully instead of failing with a FormatError. -/
theorem C1_counterexample :
    read_pb_stream (encodeFrames [⟨[]⟩] ++ [7]) = .ok [⟨[]⟩] ∧
      (([7] : List Nat)).length = 1 := by
  constructor
  · rw [read_pb_stream_frames_junk [7] (by decide), read_pb_stream_eof (by decide)]
    rfl
  · rfl

/-- C1 (amended): after any well-formed frames, a stream that ends with a
short payload (full 4-byte prefix present, fewer payload bytes than the
prefix demands) fails with the truncated-frame error; but a stream that
ends with a partial length prefix (1 to 3 bytes) terminates successfully,
the partial prefix being silently treated as end of stream. -/
theorem C1_theorem (tds : List TextData) (junk : List Nat)
    (h : ∀ td ∈ tds, wfTD td) :
    (1 ≤ junk.length → junk.length < 4 →
      read_pb_stream (encodeFrames tds ++ junk) = .ok tds) ∧
    (4 ≤ junk.length → (junk.drop 4).length < fromLE4 (junk.take 4) →
      read_pb_stream (encodeFrames tds ++ junk) = .error .unexpectedEof) := by
  constructor
  · intro _ h4
    rw [read_pb_stream_frames_junk junk h, read_pb_stream_eof h4]
    show Except.ok (tds ++ []) = _
    rw [List.append_nil]
  · intro h4 hshort
    rw [read_pb_stream_frames_junk junk h, read_pb_stream_trunc h4 hshort]
    rfl

/-- C1 witness: with no leading frames, the 1-byte stream `[7]` decodes
successfully to no partitions, and the 5-byte stream `[2,0,0,0,9]` (prefix
2, one payload byte) fails with the truncated-frame error. -/
theorem C1_witness :
    read_pb_stream (encodeFrames [] ++ [7]) = .ok [] ∧
      read_pb_stream (encodeFrames [] ++ [2, 0, 0, 0, 9]) = .error .unexpectedEof :=
  ⟨(C1_theorem [] [7] (by decide)).1 (by decide) (by decide),
   (C1_theorem [] [2, 0, 0, 0, 9] (by decide)).2 (by decide) (by decide)⟩

/-! ### C5: frame round-trip -/

/-- C5: encoding any list of partitions as length-prefixed frames and
decoding the concatenation succeeds and returns exactly those partitions,
in order, terminating normally at the stream end (each frame's payload and
Items must fit the 32-bit length prefix for the encoding to be a frame at
all). -/
theorem C5_theorem (tds : List TextData) (h : ∀ td ∈ tds, wfTD td) :
    read_pb_stream (encodeFrames tds) = .ok tds := by
  have := read_pb_stream_frames_junk [] h
  rw [List.append_nil] at this
  rw [this, read_pb_stream_eof (by decide)]
  show Except.ok (tds ++ []) = _
  rw [List.append_nil]

/-- C5 witness: a concrete two-partition stream round-trips. -/
theorem C5_witness :
    read_pb_stream (encodeFrames [⟨[⟨[1, 2]⟩, ⟨[]⟩]⟩, ⟨[⟨[3]⟩]⟩]) =
      .ok [⟨[⟨[1, 2]⟩, ⟨[]⟩]⟩, ⟨[⟨[3]⟩]⟩] :=
  C5_theorem [⟨[⟨[1, 2]⟩, ⟨[]⟩]⟩, ⟨[⟨[3]⟩]⟩] (by decide)

/-! ### C9: zero-length frames -/

/-- A frame whose length prefix is zero contributes a partition with no
Items and decoding continues with the rest of the stream. -/
theorem read_pb_stream_zero_frame (rest : List Nat) :
    read_pb_stream ([0, 0, 0, 0] ++ rest) =
      (read_pb_stream rest).map (⟨[]⟩ :: ·) := by
  have h4 : 4 ≤ ([0, 0, 0, 0] ++ rest).length := by simp
  have htake : ([0, 0, 0, 0] ++ rest).take 4 = [0, 0, 0, 0] :=
    List.take_left' rfl
  have hdrop : ([0, 0, 0, 0] ++ rest).drop 4 = rest :=
    List.drop_left' rfl
  have hsize : fromLE4 (([0, 0, 0, 0] ++ rest).take 4) = 0 := by
    rw [htake]; rfl
  have hr : fromLE4 (([0, 0, 0, 0] ++ rest).take 4) ≤
      (([0, 0, 0, 0] ++ rest).drop 4).length := by
    rw [hsize]; exact Nat.zero_le _
  rw [read_pb_stream_step h4 hr, hsize, hdrop, List.take_zero, decTD_nil,
    List.drop_zero]

/-- Loading the single file that consists of exactly one zero-length frame
yields one empty partition, stored with weight 0. -/
theorem new_single_zero :
    MyDataService.new [[0, 0, 0, 0]] = .ok ⟨[⟨[]⟩], [0]⟩ := by
  have hz : read_pb_stream [0, 0, 0, 0] = .ok [⟨[]⟩] := by
    have he : read_pb_stream ([] : List Nat) = .ok [] :=
      read_pb_stream_eof (by decide)
    have := read_pb_stream_zero_frame []
    rw [List.append_nil, he] at this
    exact this
  simp [MyDataService.new, MyDataService.new.go, hz, pushGroups]

/-- C9: a zero length prefix is valid input — the decoder reads an empty
payload, decodes it to a partition with zero Items, continues with the
next frame, and the store records that partition with weight 0. -/
theorem C9_theorem :
    (∀ rest, read_pb_stream ([0, 0, 0, 0] ++ rest) =
      (read_pb_stream rest).map (⟨[]⟩ :: ·)) ∧
    MyDataService.new [[0, 0, 0, 0]] = .ok ⟨[⟨[]⟩], [0]⟩ :=
  ⟨read_pb_stream_zero_frame, new_single_zero⟩

/-! ### C6: store construction preserves order and weight parity -/

theorem pushGroups_spec (tds : List TextData) :
    ∀ g w, pushGroups g w tds =
      (g ++ tds, w ++ tds.map (fun td => td.sentences.length)) := by
  induction tds with
  | nil => intro g w; simp [pushGroups]
  | cons td t ih =>
    intro g w
    rw [pushGroups, ih]
    simp

theorem new_go_ok (files : List (List Nat)) :
    ∀ g w svc, MyDataService.new.go files g w = .ok svc →
      ∃ ls, List.Forall₂ (fun f l => read_pb_stream f = .ok l) files ls ∧
        svc.groups = g ++ ls.flatten ∧
        svc.weights = w ++ ls.flatten.map (fun td => td.sentences.length) := by
  induction files with
  | nil =>
    intro g w svc h
    refine ⟨[], List.Forall₂.nil, ?_, ?_⟩ <;>
      simp [MyDataService.new.go] at h <;> simp [← h]
  | cons f fs ih =>
    intro g w svc h
    rw [MyDataService.new.go] at h
    cases hf : read_pb_stream f with
    | error e => rw [hf] at h; exact absurd h (by simp)
    | ok tds =>
      rw [hf] at h
      simp only [pushGroups_spec] at h
      obtain ⟨ls, hall, hg, hw⟩ := ih _ _ _ h
      refine ⟨tds :: ls, List.Forall₂.cons hf hall, ?_, ?_⟩
      · rw [hg]; simp [List.append_assoc]
      · rw [hw]; simp [List.append_assoc]

theorem getD_len_map (l : List TextData) :
    ∀ i, i < l.length →
      (l.map (fun g => g.sentences.length)).getD i 0 =
        (l.getD i default).sentences.length := by
  induction l with
  | nil => intro i h; simp at h
  | cons td t ih =>
    intro i h
    cases i with
    | zero => rfl
    | succ j =>
      simp only [List.map_cons, List.getD_cons_succ]
      exact ih j (by simpa using h)

/-- C6: on success, `MyDataService::new` appends each file's decoded
partitions in decoding order, all of file *i*'s before file *i+1*'s; the
weights list is the sentence-count image of the partitions list, so it
has the same length and `weights[i]` is the Item count of `partitions[i]`
at load time. -/
theorem C6_theorem (files : List (List Nat)) (svc : MyDataService)
    (h : MyDataService.new files = .ok svc) :
    (∃ ls, List.Forall₂ (fun f l => read_pb_stream f = .ok l) files ls ∧
      svc.groups = ls.flatten) ∧
    svc.weights = svc.groups.map (fun g => g.sentences.length) ∧
    svc.weights.length = svc.groups.length ∧
    ∀ i, i < svc.groups.length →
      svc.weights.getD i 0 = (svc.groups.getD i default).sentences.length := by
  obtain ⟨ls, hall, hg, hw⟩ := new_go_ok files [] [] svc h
  rw [List.nil_append] at hg hw
  have hmap : svc.weights = svc.groups.map (fun g => g.sentences.length) := by
    rw [hg, hw]
  refine ⟨⟨ls, hall, hg⟩, hmap, ?_, ?_⟩
  · rw [hmap, List.length_map]
  · intro i hi
    rw [hmap]
    exact getD_len_map svc.groups i hi

/-- C6 witness: loading the one-file store with a single zero-length frame
satisfies the construction invariants. -/
theorem C6_witness :
    (∃ ls, List.Forall₂ (fun f l => read_pb_stream f = .ok l) [[0, 0, 0, 0]] ls ∧
      (MyDataService.mk [⟨[]⟩] [0]).groups = ls.flatten) ∧
    (MyDataService.mk [⟨[]⟩] [0]).weights =
      (MyDataService.mk [⟨[]⟩] [0]).groups.map (fun g => g.sentences.length) ∧
    (MyDataService.mk [⟨[]⟩] [0]).weights.length =
      (MyDataService.mk [⟨[]⟩] [0]).groups.length ∧
    ∀ i, i < (MyDataService.mk [⟨[]⟩] [0]).groups.length →
      (MyDataService.mk [⟨[]⟩] [0]).weights.getD i 0 =
        ((MyDataService.mk [⟨[]⟩] [0]).groups.getD i default).sentences.length :=
  C6_theorem [[0, 0, 0, 0]] ⟨[⟨[]⟩], [0]⟩ new_single_zero

/-! ### Weighted selection lemmas -/

theorem pickWeighted_lt (ws : List Nat) :
    ∀ x, x < ws.sum →
      pickWeighted ws x < ws.length ∧ 0 < ws.getD (pickWeighted ws x) 0 := by
  induction ws with
  | nil => intro x hx; simp [List.sum_nil] at hx
  | cons w t ih =>
    intro x hx
    rw [pickWeighted]
    by_cases hxw : x < w
    · simp only [if_pos hxw]
      exact ⟨Nat.succ_le_succ (Nat.zero_le _),
        by simp only [List.getD_cons_zero]; omega⟩
    · simp only [if_neg hxw]
      have hx' : x - w < t.sum := by
        have hsum : (w :: t).sum = w + t.sum := List.sum_cons
        omega
      obtain ⟨h1, h2⟩ := ih (x - w) hx'
      exact ⟨by simpa using Nat.succ_lt_succ h1, by simpa using h2⟩

theorem choose_weighted_eq_some {groups : List TextData} {r gi : Nat}
    (h : choose_weighted groups r = some gi) :
    totalWeight groups ≠ 0 ∧
      gi = pickWeighted (groups.map (fun g => g.sentences.length))
        (r % totalWeight groups) := by
  by_cases ht : totalWeight groups = 0
  · rw [choose_weighted, if_pos ht] at h; exact absurd h (by simp)
  · rw [choose_weighted, if_neg ht] at h
    exact ⟨ht, (Option.some_inj.mp h).symm⟩

/-! ### C7: zero-weight partitions are never selected -/

/-- C7: whenever partition selection succeeds, the selected index is in
range and the selected partition has at least one Item — a partition of
weight 0 is never selected, for any store and any random draw. -/
theorem C7_theorem (groups : List TextData) (r gi : Nat)
    (h : choose_weighted groups r = some gi) :
    gi < groups.length ∧ 0 < (groups.getD gi default).sentences.length := by
  obtain ⟨ht, hgi⟩ := choose_weighted_eq_some h
  have hmod : r % totalWeight groups <
      (groups.map (fun g => g.sentences.length)).sum :=
    Nat.mod_lt _ (Nat.pos_of_ne_zero ht)
  obtain ⟨h1, h2⟩ := pickWeighted_lt _ _ hmod
  rw [List.length_map] at h1
  rw [hgi]
  refine ⟨h1, ?_⟩
  rw [← getD_len_map groups _ h1]
  exact h2

/-- C7 witness: in a store holding an empty partition followed by a
one-Item partition, the draw lands on the non-empty partition. -/
theorem C7_witness :
    (0 : Nat) < ([⟨[]⟩, ⟨[⟨[5]⟩]⟩] : List TextData).length ∧
      0 < (([⟨[]⟩, ⟨[⟨[5]⟩]⟩] : List TextData).getD 1 default).sentences.length := by
  have := C7_theorem [⟨[]⟩, ⟨[⟨[5]⟩]⟩] 0 1 (by decide)
  exact ⟨by decide, this.2⟩

/-! ### C2: sampling fails exactly on empty or all-empty stores -/

/-- C2: a request fails (with the internal SamplingError status) iff the
store has no partitions or the total weight is zero, i.e. no partition
holds any Item; with at least one non-empty partition no request fails,
whatever the random source. -/
theorem C2_theorem (svc : MyDataService) (req : SampleDataRequest)
    (rng : Nat × List Nat) :
    (∃ e, sample_data svc req rng = .error e) ↔
      (svc.groups = [] ∨ totalWeight svc.groups = 0) := by
  by_cases ht : totalWeight svc.groups = 0
  · constructor
    · intro _; exact Or.inr ht
    · intro _
      refine ⟨.internal "Failed to select a group", ?_⟩
      rw [sample_data, choose_weighted, if_pos ht]
  · constructor
    · intro ⟨e, he⟩
      rw [sample_data, choose_weighted, if_neg ht] at he
      exact absurd he (by simp)
    · intro hcase
      rcases hcase with hnil | h0
      · exact absurd (by rw [hnil]; rfl) ht
      · exact absurd h0 ht

/-! ### C3: result size is the clamped request count -/

theorem length_reservoirRun (is : List Nat) :
    ∀ res cs, (reservoirRun res is cs).length = res.length := by
  induction is with
  | nil => intro res cs; rfl
  | cons i t ih => intro res cs; rw [reservoirRun, ih, List.length_set]

theorem length_choose_multiple (m n : Nat) (cs : List Nat) :
    (choose_multiple m n cs).length = min m n := by
  rw [choose_multiple]
  by_cases h : m ≤ n
  · rw [if_pos h, List.length_range]; omega
  · rw [if_neg h, length_reservoirRun, List.length_range]; omega

/-- C3: whenever a partition is selected, the request succeeds and the
number of returned Items is `min(requested_count, partition size)`; a
request for 0 samples yields the empty sequence and no error. -/
theorem C3_theorem (svc : MyDataService) (req : SampleDataRequest)
    (r : Nat) (cs : List Nat) (gi : Nat)
    (h : choose_weighted svc.groups r = some gi) :
    ∃ d, sample_data svc req (r, cs) = .ok d ∧
      d.samples.length =
        min req.num_samples (svc.groups.getD gi default).sentences.length ∧
      (req.num_samples = 0 → d.samples = []) := by
  rw [sample_data]
  simp only [h]
  refine ⟨_, rfl, ?_, ?_⟩
  · simp only [List.length_map, length_choose_multiple]
    split <;> omega
  · intro h0
    rw [h0]
    have hlen : (choose_multiple (svc.groups.getD gi default).sentences.length
        (if 0 > (svc.groups.getD gi default).sentences.length
         then (svc.groups.getD gi default).sentences.length else 0) cs).length = 0 := by
      rw [length_choose_multiple]
      split <;> omega
    rw [List.eq_nil_of_length_eq_zero hlen]
    rfl

/-- C3 witness: a two-Item partition answers a request for five samples
with exactly two Items, and (by the same theorem at another request) a
request for zero samples with the empty sequence. -/
theorem C3_witness :
    ∃ d, sample_data ⟨[⟨[⟨[1]⟩, ⟨[2]⟩]⟩], [2]⟩ ⟨5⟩ (0, []) = .ok d ∧
      d.samples.length =
        min (5 : Nat) (([⟨[⟨[1]⟩, ⟨[2]⟩]⟩] : List TextData).getD 0 default).sentences.length ∧
      ((5 : Nat) = 0 → d.samples = []) :=
  C3_theorem ⟨[⟨[⟨[1]⟩, ⟨[2]⟩]⟩], [2]⟩ ⟨5⟩ 0 [] 0 (by decide)

/-! ### C10: the stored weights vector does not influence sampling -/

/-- C10: two service states with the same partitions and arbitrarily
different stored weights answer every request identically under the same
random source — `sample_data` recomputes each weight from the partition's
Item count and never reads the stored vector. -/
theorem C10_theorem (groups : List TextData) (w1 w2 : List Nat)
    (req : SampleDataRequest) (rng : Nat × List Nat) :
    sample_data ⟨groups, w1⟩ req rng = sample_data ⟨groups, w2⟩ req rng := rfl

/-! ### C4: sampling is without replacement -/

theorem nodup_set {x : Nat} (l : List Nat) :
    ∀ n, l.Nodup → x ∉ l → (l.set n x).Nodup := by
  induction l with
  | nil => intro n _ _; simp
  | cons a t ih =>
    intro n h1 h2
    cases n with
    | zero =>
      rw [List.set_cons_zero, List.nodup_cons]
      exact ⟨fun hx => h2 (List.mem_cons_of_mem _ hx), (List.nodup_cons.mp h1).2⟩
    | succ n =>
      rw [List.set_cons_succ, List.nodup_cons]
      refine ⟨fun ha => ?_, ih n (List.nodup_cons.mp h1).2
        (fun hx => h2 (List.mem_cons_of_mem _ hx))⟩
      rcases List.mem_or_eq_of_mem_set ha with hat | hax
      · exact (List.nodup_cons.mp h1).1 hat
      · exact h2 (hax ▸ List.mem_cons_self _ _)

theorem reservoirRun_inv (k : Nat) :
    ∀ i res cs, res.Nodup → (∀ x ∈ res, x < i) →
      (reservoirRun res (List.range' i k) cs).Nodup ∧
        ∀ x ∈ reservoirRun res (List.range' i k) cs, x < i + k := by
  induction k with
  | zero =>
    intro i res cs h1 h2
    rw [show List.range' i 0 = [] from rfl, reservoirRun]
    exact ⟨h1, fun x hx => by have := h2 x hx; omega⟩
  | succ k ih =>
    intro i res cs h1 h2
    rw [List.range'_succ, reservoirRun]
    have hnotmem : i ∉ res := fun hmem => Nat.lt_irrefl i (h2 i hmem)
    have h1' : (res.set (cs.headD i % (i + 1)) i).Nodup := nodup_set res _ h1 hnotmem
    have h2' : ∀ x ∈ res.set (cs.headD i % (i + 1)) i, x < i + 1 := by
      intro x hx
      rcases List.mem_or_eq_of_mem_set hx with hxr | hxi
      · have := h2 x hxr; omega
      · omega
    obtain ⟨ha, hb⟩ := ih (i + 1) _ cs.tail h1' h2'
    exact ⟨ha, fun x hx => by have := hb x hx; omega⟩

theorem choose_multiple_nodup (m n : Nat) (cs : List Nat) :
    (choose_multiple m n cs).Nodup ∧ ∀ p ∈ choose_multiple m n cs, p < m := by
  rw [choose_multiple]
  by_cases h : m ≤ n
  · rw [if_pos h]
    exact ⟨List.nodup_range m, fun p hp => List.mem_range.mp hp⟩
  · rw [if_neg h]
    obtain ⟨ha, hb⟩ := reservoirRun_inv (m - n) n (List.range n) cs
      (List.nodup_range n) (fun x hx => List.mem_range.mp hx)
    exact ⟨ha, fun p hp => by have := hb p hp; omega⟩

/-- C4: every successful response is the image of a list of pairwise
distinct in-range positions of the selected partition — the
without-replacement draw never uses a position twice, for any store,
request and random source. -/
theorem C4_theorem (svc : MyDataService) (req : SampleDataRequest)
    (rng : Nat × List Nat) (d : SampledData)
    (h : sample_data svc req rng = .ok d) :
    ∃ gi ps, choose_weighted svc.groups rng.1 = some gi ∧
      List.Nodup ps ∧
      (∀ p ∈ ps, p < (svc.groups.getD gi default).sentences.length) ∧
      d.samples = ps.map
        (fun p => (svc.groups.getD gi default).sentences.getD p default) := by
  rw [sample_data] at h
  cases hcw : choose_weighted svc.groups rng.1 with
  | none => rw [hcw] at h; exact absurd h (by simp)
  | some gi =>
    rw [hcw] at h
    have hd : (⟨(choose_multiple (svc.groups.getD gi default).sentences.length
        (if req.num_samples > (svc.groups.getD gi default).sentences.length
         then (svc.groups.getD gi default).sentences.length
         else req.num_samples) rng.2).map
          (fun p => (svc.groups.getD gi default).sentences.getD p default)⟩ :
        SampledData) = d := Except.ok.inj h
    refine ⟨gi, choose_multiple (svc.groups.getD gi default).sentences.length
      (if req.num_samples > (svc.groups.getD gi default).sentences.length
       then (svc.groups.getD gi default).sentences.length
       else req.num_samples) rng.2, rfl,
      (choose_multiple_nodup _ _ _).1, (choose_multiple_nodup _ _ _).2, ?_⟩
    rw [← hd]

/-- C4 witness: a concrete successful request returns Items at distinct
positions. -/
theorem C4_witness :
    ∃ gi ps,
      choose_weighted ([⟨[⟨[1]⟩, ⟨[2]⟩, ⟨[3]⟩]⟩] : List TextData) 0 = some gi ∧
      List.Nodup ps ∧
      (∀ p ∈ ps,
        p < (([⟨[⟨[1]⟩, ⟨[2]⟩, ⟨[3]⟩]⟩] : List TextData).getD gi default).sentences.length) ∧
      (SampledData.mk [⟨[1]⟩, ⟨[2]⟩]).samples = ps.map
        (fun p =>
          (([⟨[⟨[1]⟩, ⟨[2]⟩, ⟨[3]⟩]⟩] : List TextData).getD gi default).sentences.getD
            p default) :=
  C4_theorem ⟨[⟨[⟨[1]⟩, ⟨[2]⟩, ⟨[3]⟩]⟩], [3]⟩ ⟨2⟩ (0, []) ⟨[⟨[1]⟩, ⟨[2]⟩]⟩ (by decide)

/-! ### C8: every surviving subset is reachable -/

/-- In a duplicate-free reservoir, one occupant `y` can be exchanged for a
fresh element `i` by overwriting `y`'s slot: the result is duplicate-free
and holds exactly `i` plus the occupants other than `y`. -/
theorem set_exchange (res : List Nat) (y i : Nat) :
    res.Nodup → y ∈ res → i ∉ res →
      ∃ j, j < res.length ∧ (res.set j i).Nodup ∧
        ∀ x, x ∈ res.set j i ↔ (x = i ∨ (x ∈ res ∧ x ≠ y)) := by
  induction res with
  | nil => intro _ hy _; simp at hy
  | cons a t ih =>
    intro hnd hy hi
    rw [List.nodup_cons] at hnd
    by_cases hya : y = a
    · refine ⟨0, Nat.succ_pos _, ?_, ?_⟩
      · rw [List.set_cons_zero, List.nodup_cons]
        exact ⟨fun hit => hi (List.mem_cons_of_mem _ hit), hnd.2⟩
      · intro x
        rw [List.set_cons_zero]
        constructor
        · intro hx
          rcases List.mem_cons.mp hx with hxi | hxt
          · exact Or.inl hxi
          · refine Or.inr ⟨List.mem_cons_of_mem _ hxt, fun hxy => ?_⟩
            rw [hxy, hya] at hxt
            exact hnd.1 hxt
        · intro hx
          rcases hx with hxi | ⟨hxmem, hxy⟩
          · exact hxi ▸ List.mem_cons_self _ _
          · rcases List.mem_cons.mp hxmem with hxa | hxt
            · exact absurd (hxa.trans hya.symm) hxy
            · exact List.mem_cons_of_mem _ hxt
    · have hyt : y ∈ t := by
        rcases List.mem_cons.mp hy with h | h
        · exact absurd h hya
        · exact h
      obtain ⟨j, hj, hnd', hmem'⟩ := ih hnd.2 hyt (fun hit => hi (List.mem_cons_of_mem _ hit))
      refine ⟨j + 1, Nat.succ_lt_succ hj, ?_, ?_⟩
      · rw [List.set_cons_succ, List.nodup_cons]
        refine ⟨fun ha => ?_, hnd'⟩
        rcases (hmem' a).mp ha with hai | ⟨hat, _⟩
        · exact hi (hai ▸ List.mem_cons_self _ _)
        · exact hnd.1 hat
      · intro x
        rw [List.set_cons_succ]
        constructor
        · intro hx
          rcases List.mem_cons.mp hx with hxa | hxt
          · exact Or.inr ⟨hxa ▸ List.mem_cons_self _ _,
              fun hxy => hya ((hxy ▸ hxa : y = a))⟩
          · rcases (hmem' x).mp hxt with h | ⟨h1, h2⟩
            · exact Or.inl h
            · exact Or.inr ⟨List.mem_cons_of_mem _ h1, h2⟩
        · intro hx
          rcases hx with hxi | ⟨hxmem, hxy⟩
          · exact List.mem_cons_of_mem _ ((hmem' x).mpr (Or.inl hxi))
          · rcases List.mem_cons.mp hxmem with hxa | hxt
            · exact hxa ▸ List.mem_cons_self _ _
            · exact List.mem_cons_of_mem _ ((hmem' x).mpr (Or.inr ⟨hxt, hxy⟩))

/-- Reservoir reachability: from any duplicate-free reservoir of `n`
occupants all below `i`, any target set of `n` positions below `i + k`
whose sub-`i` part is already aboard can be produced by some sequence of
draws over the indices `i, …, i + k - 1`. -/
theorem reservoir_reach (k : Nat) :
    ∀ i (res : List Nat) (S : Finset Nat), res.Nodup → res.length ≤ i →
      (∀ x ∈ res, x < i) → S.card = res.length →
      (∀ x ∈ S, x < i + k) → (∀ x ∈ S, x < i → x ∈ res) →
      ∃ cs, (reservoirRun res (List.range' i k) cs).toFinset = S := by
  induction k with
  | zero =>
    intro i res S h1 hni h2 hcard hSk hSres
    refine ⟨[], ?_⟩
    rw [show List.range' i 0 = [] from rfl, reservoirRun]
    have hsub : S ⊆ res.toFinset := fun x hx =>
      List.mem_toFinset.mpr (hSres x hx (by have := hSk x hx; omega))
    have hle : res.toFinset.card ≤ S.card := by
      rw [List.toFinset_card_of_nodup h1, hcard]
    exact (Finset.eq_of_subset_of_card_le hsub hle).symm
  | succ k ih =>
    intro i res S h1 hni h2 hcard hSk hSres
    rw [List.range'_succ]
    by_cases hiS : i ∈ S
    · have hex : ∃ y ∈ res, y ∉ S := by
        by_contra hall
        push_neg at hall
        have hsub : res.toFinset ⊆ S := fun x hx => hall x (List.mem_toFinset.mp hx)
        have hle : S.card ≤ res.toFinset.card := by
          rw [List.toFinset_card_of_nodup h1, hcard]
        have heq : res.toFinset = S := Finset.eq_of_subset_of_card_le hsub hle
        rw [← heq] at hiS
        exact Nat.lt_irrefl i (h2 i (List.mem_toFinset.mp hiS))
      obtain ⟨y, hyres, hyS⟩ := hex
      obtain ⟨j, hj, hnd', hmem'⟩ := set_exchange res y i h1 hyres
        (fun hmem => Nat.lt_irrefl i (h2 i hmem))
      have hjmod : j % (i + 1) = j := Nat.mod_eq_of_lt (by omega)
      obtain ⟨cs', hcs'⟩ := ih (i + 1) (res.set j i) S hnd'
        (by rw [List.length_set]; omega)
        (fun x hx => by
          rcases (hmem' x).mp hx with hxe | ⟨hxr, _⟩
          · omega
          · have := h2 x hxr; omega)
        (by rw [List.length_set]; exact hcard)
        (fun x hx => by have := hSk x hx; omega)
        (fun x hx hxi => by
          by_cases hxe : x = i
          · exact (hmem' x).mpr (Or.inl hxe)
          · exact (hmem' x).mpr (Or.inr ⟨hSres x hx (by omega),
              fun hxy => hyS (hxy ▸ hx)⟩))
      refine ⟨j :: cs', ?_⟩
      rw [reservoirRun]
      simpa [hjmod] using hcs'
    · have hii : i % (i + 1) = i := Nat.mod_eq_of_lt (Nat.lt_succ_self i)
      have hnoop : res.set i i = res := List.set_eq_of_length_le hni
      obtain ⟨cs', hcs'⟩ := ih (i + 1) res S h1 (by omega)
        (fun x hx => Nat.lt_succ_of_lt (h2 x hx)) hcard
        (fun x hx => by have := hSk x hx; omega)
        (fun x hx hxi => hSres x hx
          (by have : x ≠ i := fun he => hiS (he ▸ hx); omega))
      refine ⟨i :: cs', ?_⟩
      rw [reservoirRun]
      simpa [hii, hnoop] using hcs'

/-- Any size-`n` subset of positions is a possible outcome of
`choose_multiple` over `0..m`, for `n ≤ m`. -/
theorem choose_multiple_reach (m n : Nat) (S : Finset Nat) (hnm : n ≤ m)
    (hS : S ⊆ Finset.range m) (hcard : S.card = n) :
    ∃ cs, (choose_multiple m n cs).toFinset = S := by
  by_cases h : m ≤ n
  · refine ⟨[], ?_⟩
    rw [choose_multiple, if_pos h]
    have hsub : S ⊆ (List.range m).toFinset := fun x hx =>
      List.mem_toFinset.mpr (List.mem_range.mpr (Finset.mem_range.mp (hS hx)))
    have hle : (List.range m).toFinset.card ≤ S.card := by
      rw [List.toFinset_card_of_nodup (List.nodup_range m), List.length_range, hcard]
      omega
    exact (Finset.eq_of_subset_of_card_le hsub hle).symm
  · have hkey := reservoir_reach (m - n) n (List.range n) S (List.nodup_range n)
      (by rw [List.length_range])
      (fun x hx => List.mem_range.mp hx)
      (by rw [List.length_range]; exact hcard)
      (fun x hx => by have := Finset.mem_range.mp (hS hx); omega)
      (fun x _ hxn => List.mem_range.mpr hxn)
    obtain ⟨cs, hcs⟩ := hkey
    refine ⟨cs, ?_⟩
    rw [choose_multiple, if_neg h]
    exact hcs

/-- C8: for any selected partition and any set `S` of positions of the
clamped sample size, some random source makes `sample_data` return exactly
the Items at the positions of `S` — every surviving subset is reachable
by the without-replacement draw. -/
theorem C8_theorem (svc : MyDataService) (req : SampleDataRequest)
    (r gi : Nat) (S : Finset Nat)
    (hcw : choose_weighted svc.groups r = some gi)
    (hS : S ⊆ Finset.range (svc.groups.getD gi default).sentences.length)
    (hcard : S.card =
      min req.num_samples (svc.groups.getD gi default).sentences.length) :
    ∃ cs : List Nat, ∃ ps : List Nat, sample_data svc req (r, cs) =
        .ok ⟨ps.map (fun p => (svc.groups.getD gi default).sentences.getD p default)⟩ ∧
      ps.toFinset = S := by
  have hnm : (if req.num_samples > (svc.groups.getD gi default).sentences.length
      then (svc.groups.getD gi default).sentences.length
      else req.num_samples) ≤ (svc.groups.getD gi default).sentences.length := by
    split <;> omega
  have hcard' : S.card =
      (if req.num_samples > (svc.groups.getD gi default).sentences.length
       then (svc.groups.getD gi default).sentences.length
       else req.num_samples) := by
    rw [hcard]; split <;> omega
  obtain ⟨cs, hcs⟩ := choose_multiple_reach
    (svc.groups.getD gi default).sentences.length _ S hnm hS hcard'
  refine ⟨cs, choose_multiple (svc.groups.getD gi default).sentences.length
    (if req.num_samples > (svc.groups.getD gi default).sentences.length
     then (svc.groups.getD gi default).sentences.length
     else req.num_samples) cs, ?_, hcs⟩
  rw [sample_data, hcw]

/-- C8 witness: in a one-partition store of two Items, a request for one
sample can return exactly the Item at position 1. -/
theorem C8_witness :
    ∃ cs : List Nat, ∃ ps : List Nat, sample_data ⟨[⟨[⟨[1]⟩, ⟨[2]⟩]⟩], [2]⟩ ⟨1⟩ (0, cs) =
        .ok ⟨ps.map (fun p =>
          (([⟨[⟨[1]⟩, ⟨[2]⟩]⟩] : List TextData).getD 0 default).sentences.getD p default)⟩ ∧
      ps.toFinset = ({1} : Finset Nat) :=
  C8_theorem ⟨[⟨[⟨[1]⟩, ⟨[2]⟩]⟩], [2]⟩ ⟨1⟩ 0 0 {1} (by decide) (by decide) (by decide)

end DataServer
